import Mathlib

/-!
Verification development for the belvys structure-resolution and
data-aggregation engine.

The Python source is shallowly embedded:

* `TsNameTree` (`Union[str, Iterable[str], Dict[str, TsNameTree]]`) becomes the
  inductive `NameTree`.  After template expansion a list node may contain
  arbitrary subtrees (not only strings), which the inductive permits, matching
  the dynamic typing of the source.
* Python dicts become association lists (`List (String × _)`), which preserve
  insertion order; lookup takes the first matching key, and well-formed values
  have `Nodup` keys (Python dicts cannot hold duplicate keys).
* Exceptions become `Except PyErr _`; the distinct raise sites of the source
  are distinguished by the `PyErr` constructors.
* Recursive Python functions whose termination is not structural are given a
  fuel parameter; running out of fuel models Python's `RecursionError`.
-/

namespace Belvys

/-- Association-list lookup, first match wins (Python `dict.get`). -/
def lookupN {α : Type} (l : List (String × α)) (k : String) : Option α :=
  (l.find? (fun p => p.1 == k)).map Prod.snd

/-- `TsNameTree = Union[str, Iterable[str], Dict[str, "TsNameTree"]]` from
`structure.py`.  List elements are full subtrees because template expansion
(`Structure._expand_tree`) can place expanded trees inside lists. -/
inductive NameTree where
  | str (s : String)
  | list (ts : List NameTree)
  | dict (kvs : List (String × NameTree))
deriving Repr

/-- `Ts` dataclass from `structure.py` (the `tsid`/`series` fields are filled
later by the tenant and stay `None` at creation; we keep the two fields that
`create_tstree` sets).  The `name` field holds a whole `NameTree` because the
dynamically typed source can place a non-string there (list branch of
`create_tstree` applied to a list that holds an expanded subtree). -/
structure Ts where
  pfid : String
  name : NameTree
deriving Repr

/-- `TsTree = Union[Ts, Iterable[Ts], Dict[str, "TsTree"]]` from `structure.py`. -/
inductive TsTree where
  | ts (t : Ts)
  | list (ts : List TsTree)
  | dict (kvs : List (String × TsTree))
deriving Repr

/-- `create_tstree` from `structure.py`: a dict maps recursively, a string
becomes a one-element list of `Ts`, and any other iterable wraps each element
into a `Ts` directly. -/
def create_tstree (pfid : String) : NameTree → TsTree
  | .dict kvs => .dict (kvs.attach.map (fun x => (x.1.1, create_tstree pfid x.1.2)))
  | .str tsname => .list [.ts ⟨pfid, .str tsname⟩]
  | .list tsnames => .list (tsnames.map (fun tsname => .ts ⟨pfid, tsname⟩))
decreasing_by
  obtain ⟨⟨k, v⟩, hmem⟩ := x
  have h := List.sizeOf_lt_of_mem hmem
  simp at h ⊢
  omega

/-- A synthetic-portfolio reference: `Union[str, Iterable[str]]` in
`structure.py` (nested lists are also accepted by `_assert_valid_ref`). -/
inductive Ref where
  | str (s : String)
  | list (rs : List Ref)
deriving Repr

/-- `Portfolios` dataclass from `structure.py`. -/
structure Portfolios where
  original : List String
  synthetic : List (String × Ref)
deriving Repr

mutual

/-- `Portfolios._assert_valid_ref`: a string must be an original id or a
synthetic key; an iterable is checked element-wise. -/
def assertValidRef (p : Portfolios) : Ref → Bool
  | .str s => decide (s ∈ p.original) || (lookupN p.synthetic s).isSome
  | .list rs => assertValidRefAll p rs

/-- Elementwise check of an iterable reference. -/
def assertValidRefAll (p : Portfolios) : List Ref → Bool
  | [] => true
  | r :: rs => assertValidRef p r && assertValidRefAll p rs

end

/-- `Portfolios.__post_init__`: `original` non-empty and every synthetic
reference valid. -/
def portfoliosValid (p : Portfolios) : Bool :=
  !p.original.isEmpty && p.synthetic.all (fun kv => assertValidRef p kv.2)

/-- Price entry of the `prices` mapping in `structure.py`. -/
structure PriceSpec where
  pfid : String
  tsnames : NameTree
deriving Repr

/-- The `Structure` dataclass from `structure.py` (post-`__post_init__` state;
the expansion that `__post_init__` applies to `pflines` is modelled separately
by `postInitPflines`). -/
structure Structure where
  freq : String
  tz : String
  pflines : List (String × NameTree)
  portfolios : Portfolios
  prices : List (String × PriceSpec)
  corrections : List (String × List (String × Option NameTree))
deriving Repr

/-- Distinct raise sites of the Python source. -/
inductive PyErr where
  | invalidPfid      -- `ValueError("``pfid`` must one of ...")`
  | notFound         -- `ValueError("The portfolio line ... does not exists ...")`
  | valueError       -- `ValueError("Could not find portfolio id ...")`
  | keyError         -- `set.remove` on an absent element
  | typeError        -- `set.intersection(*[])`, or hashing an unhashable list
  | recursionLimit   -- Python `RecursionError`
  | runtimeError     -- `RuntimeError(response)` in `Api.query`
  | connectionError  -- `ConnectionError` re-raised in `Api.query`
deriving Repr, DecidableEq

/-- Equality of `Except` results is decidable when both components are. -/
instance {ε α : Type} [DecidableEq ε] [DecidableEq α] :
    DecidableEq (Except ε α) := fun x y =>
  match x, y with
  | .ok a, .ok b =>
    if h : a = b then isTrue (by rw [h])
    else isFalse (by intro he; cases he; exact h rfl)
  | .error a, .error b =>
    if h : a = b then isTrue (by rw [h])
    else isFalse (by intro he; cases he; exact h rfl)
  | .ok _, .error _ => isFalse (by intro he; cases he)
  | .error _, .ok _ => isFalse (by intro he; cases he)

/-- `Structure.available_pfids`. -/
def available_pfids (s : Structure) (original_only : Bool) : List String :=
  if original_only then s.portfolios.original
  else s.portfolios.original ++ s.portfolios.synthetic.map Prod.fst

/-- Whether a correction value is the sentinel string `"notfound"` used as the
`dict.get` default in `Structure.tstree_pfline` (`tsname_tree != "notfound"`). -/
def isNotfoundSentinel : NameTree → Bool
  | .str s => s == "notfound"
  | _ => false

/-- The correction value stored for `(pfid, pflineid)`:
`none` when no entry exists, `some none` for the Python `None` marker,
`some (some t)` for a stored tree. -/
def corrVal (s : Structure) (pfid pflineid : String) : Option (Option NameTree) :=
  lookupN ((lookupN s.corrections pfid).getD []) pflineid

/-- `Structure.tstree_pfline`: the correction value for `(pfid, pflineid)` is
looked up with the string `"notfound"` as default; `None` raises, any other
value different from the sentinel is returned via `create_tstree`, and the
sentinel falls through to the default `pflines` template. -/
def tstree_pfline (s : Structure) (pfid pflineid : String) :
    Except PyErr TsTree :=
  if pfid ∉ available_pfids s true then .error .invalidPfid
  else
    -- `self.corrections.get(pfid, {}).get(pflineid, "notfound")`
    let tsname_tree : Option NameTree :=
      match corrVal s pfid pflineid with
      | none => some (.str "notfound")
      | some v => v
    match tsname_tree with
    | none => .error .notFound
    | some t =>
      if !isNotfoundSentinel t then .ok (create_tstree pfid t)
      else
        match lookupN s.pflines pflineid with
        | none => .error .notFound
        | some u => .ok (create_tstree pfid u)

/-! ## Template expansion (`Structure._expand_tree`)

The Python method recurses through the tree and, on a string node that is a
key of `pflines`, recurses into that template.  That recursion is not
structural, so a fuel counter is consumed each time a template reference is
followed; exhausted fuel (`none`) models the non-termination / `RecursionError`
that the Python code exhibits on cyclic template graphs. -/

mutual

/-- `Structure._expand_tree`, parametrised by the `pflines` mapping it reads. -/
def expandF (pfl : List (String × NameTree)) : Nat → NameTree → Option NameTree
  | n, .str s =>
    match lookupN pfl s with
    | some u =>
      match n with
      | 0 => none
      | m + 1 => expandF pfl m u
    | none => some (.str s)
  | n, .list ts => (expandListF pfl n ts).map .list
  | n, .dict kvs => (expandDictF pfl n kvs).map .dict
termination_by n t => (n, sizeOf t)

/-- Elementwise expansion of a list node. -/
def expandListF (pfl : List (String × NameTree)) :
    Nat → List NameTree → Option (List NameTree)
  | _, [] => some []
  | n, t :: ts => do
    let u ← expandF pfl n t
    let us ← expandListF pfl n ts
    some (u :: us)
termination_by n ts => (n, sizeOf ts)

/-- Valuewise expansion of a dict node. -/
def expandDictF (pfl : List (String × NameTree)) :
    Nat → List (String × NameTree) → Option (List (String × NameTree))
  | _, [] => some []
  | n, (k, v) :: kvs => do
    let u ← expandF pfl n v
    let us ← expandDictF pfl n kvs
    some ((k, u) :: us)
termination_by n kvs => (n, sizeOf kvs)

end

/-- The `pflines` rewrite of `Structure.__post_init__`: every template value is
expanded against the (pre-assignment) `pflines` mapping; the comprehension is
evaluated in full before `self.pflines` is reassigned, so all expansions read
the original mapping. -/
def postInitPflines (fuel : Nat) (s : Structure) :
    Option (List (String × NameTree)) :=
  s.pflines.mapM (fun kv => (expandF s.pflines fuel kv.2).map (fun v => (kv.1, v)))

/-- `Structure.__post_init__` modelled as a whole: only `pflines` is rewritten;
`corrections`, `portfolios` and `prices` are merely validated. -/
def postInitF (fuel : Nat) (s : Structure) : Option Structure :=
  (postInitPflines fuel s).map (fun pfl => { s with pflines := pfl })

/-- The assertions of `Structure.__post_init__` on the `corrections` field:
every corrected pfid is an original portfolio, and every `None` correction
refers to an existing pfline template. -/
def correctionsValid (s : Structure) : Bool :=
  s.corrections.all (fun pc =>
    pc.1 ∈ s.portfolios.original &&
    pc.2.all (fun lc => lc.2.isSome || (lookupN s.pflines lc.1).isSome))

/-! ## Portfolio flattening (`Structure.to_original_pfids`)

Python iterates `for child_pfid in self.portfolios.synthetic[pfid]`: when the
stored reference is a single string this iterates over its *characters* (each a
one-character string), and when it is a list it iterates over the elements.
Looking up a list in the synthetic dict (`pfid in self.portfolios.synthetic`)
hashes an unhashable value and raises `TypeError`.  Fuel exhaustion models
Python's `RecursionError`. -/

/-- The values produced by iterating over a synthetic reference:
characters of a string, or elements of a list. -/
def refChildren : Ref → List Ref
  | .str s => s.data.map (fun c => .str (String.mk [c]))
  | .list rs => rs

/-- The nested `for child_pfid ... for pfid ...` loops of
`Structure.to_original_pfids`: flatten each child with `f` (in order) and
append the results; the first exception propagates. -/
def childLoop (f : Ref → Except PyErr (List String)) :
    List Ref → Except PyErr (List String)
  | [] => .ok []
  | c :: cs => do
    let l ← f c
    let ls ← childLoop f cs
    .ok (l ++ ls)

/-- `Structure.to_original_pfids` (argument generalised to `Ref` because the
recursion can be handed a list element that is itself a list). -/
def to_original_pfidsF (s : Structure) : Nat → Ref → Except PyErr (List String)
  | 0, _ => .error .recursionLimit
  | n + 1, r =>
    match r with
    | .str pfid =>
      if pfid ∈ s.portfolios.original then .ok [pfid]
      else
        match lookupN s.portfolios.synthetic pfid with
        | some ref => childLoop (fun c => to_original_pfidsF s n c) (refChildren ref)
        | none => .error .valueError
    | .list _ => .error .typeError

/-! ## Available pfline ids (`Structure.available_pflineids`) -/

/-- One step of applying a correction entry to the running set of pfline ids:
`None` removes (Python `set.remove`, raising `KeyError` when absent), a
concrete tree adds. -/
def applyCorrection (acc : Except PyErr (Finset String))
    (lc : String × Option NameTree) : Except PyErr (Finset String) := do
  let ids ← acc
  match lc.2 with
  | none => if lc.1 ∈ ids then .ok (ids.erase lc.1) else .error .keyError
  | some _ => .ok (insert lc.1 ids)

/-- The keys of the `pflines` mapping, as a finite set. -/
def pflineKeys (s : Structure) : Finset String :=
  (s.pflines.map Prod.fst).toFinset

/-- The original-portfolio branch of `Structure.available_pflineids`. -/
def availOriginal (s : Structure) (pfid : String) : Except PyErr (Finset String) :=
  ((lookupN s.corrections pfid).getD []).foldl applyCorrection (.ok (pflineKeys s))

/-- `Structure.available_pflineids`.  For an original pfid the corrections are
applied to the set of template ids; otherwise the pfid is flattened to
originals and the recursive results are intersected
(`set.intersection(*[...])` raises `TypeError` when the list is empty). -/
def available_pflineidsF (s : Structure) : Nat → String → Except PyErr (Finset String)
  | fuel, pfid =>
    if pfid ∈ s.portfolios.original then availOriginal s pfid
    else
      match fuel with
      | 0 => .error .recursionLimit
      | f + 1 => do
        let l ← to_original_pfidsF s (f + 1) (.str pfid)
        let sets ← l.mapM (available_pflineidsF s f)
        match sets with
        | [] => .error .typeError
        | s0 :: rest => .ok (rest.foldl (· ∩ ·) s0)

/-! ## Aggregation (`Tenant._pfline` of `tenant.py`)

The external `portfolyo` objects are modelled by the physical dimensions they
carry: a flat portfolio line records which of volume / price / revenue data it
holds, and a nested line holds named children.  The `kind` of a flat line is
determined by its dimensions; the kind of a nested line is the kind of its
children (portfolyo requires them to agree). -/

/-- `portfolyo.Kind`. -/
inductive Kind where
  | volume
  | price
  | revenue
  | complete
deriving Repr, DecidableEq

/-- Model of `portfolyo.PfLine`: flat lines carry their dimensions
(volume / price / revenue present), nested lines carry named children. -/
inductive PfLine where
  | flat (hasVol hasPri hasRev : Bool)
  | nested (children : List (String × PfLine))
deriving Repr

/-- The kind of a portfolio line.  A flat line with exactly one dimension has
that dimension's kind, any other combination is complete; a nested line takes
the (common) kind of its children. -/
def PfLine.kind : PfLine → Kind
  | .flat true false false => .volume
  | .flat false true false => .price
  | .flat false false true => .revenue
  | .flat _ _ _ => .complete
  | .nested cs =>
    match cs with
    | [] => .complete
    | c :: _ => c.2.kind

/-- `pfl | pf.Q_(0.0, "MW")`: adding a zero-volume quantity to a flat line adds
the volume dimension.  Modelled from the source's own TODO note in
`Tenant._pfline`: portfolyo does not allow `NestedPfLine | 0 MW`, so the
operation fails on a nested line. -/
def orZeroMW : PfLine → Option PfLine
  | .flat _ hasPri hasRev => some (.flat true hasPri hasRev)
  | .nested _ => none

/-- The input to `Tenant._pfline`: a `SeriesTree` whose flat part (a series or
list of series, already summed per dimension by `to_series_tree`) is abstracted
to the set of physical dimensions present. -/
inductive SeriesTree where
  | flat (hasVol hasPri hasRev : Bool)
  | dict (kvs : List (String × SeriesTree))
deriving Repr

mutual

/-- `Tenant._pfline` (live code path): a dict node recursively builds the
children, replaces each child of kind `REVENUE` by `child | pf.Q_(0.0, "MW")`,
and combines them with the `pf.PfLine` constructor; a flat node builds a flat
line from its series.  (The padding of price-only children appears only in the
unreachable code after the first `return`.) -/
def pfline : SeriesTree → Option PfLine
  | .flat hasVol hasPri hasRev => some (.flat hasVol hasPri hasRev)
  | .dict kvs => do
    let children ← pflineChildren kvs
    let padded ← children.mapM
      (fun c =>
        if c.2.kind = Kind.revenue then (orZeroMW c.2).map (fun v => (c.1, v))
        else some c)
    some (.nested padded)

/-- The first dict comprehension of `Tenant._pfline`: build the child
portfolio line for every named subtree. -/
def pflineChildren : List (String × SeriesTree) → Option (List (String × PfLine))
  | [] => some []
  | (k, v) :: kvs => do
    let c ← pfline v
    let cs ← pflineChildren kvs
    some ((k, c) :: cs)

end

/-- The reconciliation step exactly as the spec words it after amendment: a
child of kind `REVENUE` is padded with a zero volume component, every other
child is passed through unchanged. -/
def padChildSpec (c : PfLine) : Option PfLine :=
  if c.kind = Kind.revenue then orZeroMW c else some c

/-! ## Adjustment chain (`adjustment.py`, `fact_default_aftercare` of
`tenant.py`)

A pandas series is abstracted to its timestamp index (instants, in minutes), a
timezone label, and an optional inferred frequency.  Timezone conversion
relabels without moving instants. -/

/-- Abstraction of a fetched `pd.Series`: timestamps in minutes, the timezone
the index is expressed in, and the frequency attached to the index. -/
structure Series where
  idx : List Int
  tz : String
  freq : Option Int
deriving Repr

/-- `fact_convert_to_tz(tz)` (`adjustment.py`): `s.tz_convert(tz)` keeps the
instants and changes the timezone of the index. -/
def convert_to_tz (tz : String) (s : Series) : Series :=
  { s with tz := tz }

/-- Modelled from the external `pf.tools.freq.set_to_frame(s, None)` used by
`infer_frequency`: the index frequency that can be inferred from the
timestamps — the common gap when at least three timestamps advance uniformly,
none otherwise. -/
def inferredFreq : List Int → Option Int
  | a :: b :: c :: rest =>
    if ((c :: rest).zip (b :: c :: rest)).all (fun p => p.1 - p.2 == b - a)
    then some (b - a) else none
  | _ => none

/-- `infer_frequency = fact_frequency(None)` (`adjustment.py`): infer the
frequency and leave it unset when none can be inferred. -/
def infer_frequency (s : Series) : Series :=
  { s with freq := inferredFreq s.idx }

/-- Modelled from the external `pf.tools.righttoleft.index`: each right-bound
timestamp is replaced by the left bound of its period, i.e. shifted back by
one period length. -/
def righttoleft (td : Int) (idx : List Int) : List Int :=
  idx.map (fun t => t - td)

/-- `makeleft` (`adjustment.py`): when the gap between the first two
timestamps is at most 2 hours (120 minutes), assume right-bound and shift to
left-bound; accessing `s.index[1]` on a shorter series raises `IndexError`
(modelled as `none`). -/
def makeleft (s : Series) : Option Series :=
  match s.idx with
  | a :: b :: _ =>
    if b - a ≤ 120 then some { s with idx := righttoleft (b - a) s.idx }
    else some s
  | _ => none

/-- `fact_default_aftercare` (`tenant.py`): convert to the structure's
timezone, infer the frequency, make timestamps left-bound — in that order. -/
def fact_default_aftercare (tz : String) (s : Series) : Option Series :=
  makeleft (infer_frequency (convert_to_tz tz s))

/-! ## `Api.query` (`api.py`)

The remote server is modelled by a script: the list of status codes of the
successive responses it will give.  The instance state that `query` reads and
writes is the `_retry` flag.  The outcome records the result, the flag after
the call, the unconsumed script, and how many requests and authentications
were performed. -/

/-- Outcome of one `Api.query` call. -/
structure QueryOutcome where
  result : Except PyErr Unit
  retry : Bool
  rest : List Nat
  reqs : Nat
  auths : Nat
deriving Repr

/-- `Api.query`: a 200 response returns and resets `_retry`; a failing
response with `_retry` set clears the flag, re-authenticates and retries the
same request; a failing response with the flag cleared raises `RuntimeError`.
An empty script models `ConnectionError` from the transport. -/
def query (retry : Bool) : List Nat → QueryOutcome
  | [] => ⟨.error .connectionError, retry, [], 1, 0⟩
  | code :: rest =>
    if code = 200 then ⟨.ok (), true, rest, 1, 0⟩
    else if retry then
      let o := query false rest
      ⟨o.result, o.retry, o.rest, o.reqs + 1, o.auths + 1⟩
    else ⟨.error .runtimeError, retry, rest, 1, 0⟩

/-! ## Predicates used by the theorems -/

mutual

/-- All string leaves of a name tree (the positions where `_expand_tree` may
substitute a template). -/
def treeRefs : NameTree → List String
  | .str s => [s]
  | .list ts => listRefs ts
  | .dict kvs => dictRefs kvs

/-- String leaves of the trees in a list node. -/
def listRefs : List NameTree → List String
  | [] => []
  | t :: ts => treeRefs t ++ listRefs ts

/-- String leaves of the values of a dict node. -/
def dictRefs : List (String × NameTree) → List String
  | [] => []
  | (_, v) :: kvs => treeRefs v ++ dictRefs kvs

end

/-- Acyclicity of the line-template graph, witnessed by a rank function:
every template reference points to a template of strictly smaller rank. -/
def PflAcyclic (pfl : List (String × NameTree)) (r : String → Nat) : Prop :=
  ∀ kv ∈ pfl, ∀ q ∈ treeRefs kv.2, (lookupN pfl q).isSome = true → r q < r kv.1

/-- All ranks of templates referenced by `t` lie below `n` (enough fuel to
expand `t`). -/
def RankBelow (pfl : List (String × NameTree)) (r : String → Nat) (n : Nat)
    (t : NameTree) : Prop :=
  ∀ q ∈ treeRefs t, (lookupN pfl q).isSome = true → r q < n

/-- The flattening recursion of `Structure.to_original_pfids` terminates on
this argument: some fuel suffices, i.e. Python does not hit its recursion
limit. -/
def FlattenTerminates (s : Structure) (r : Ref) : Prop :=
  ∃ n, to_original_pfidsF s n r ≠ .error .recursionLimit

/-- Acyclicity of the synthetic-reference graph, witnessed by a rank function:
iterating a synthetic reference only reaches synthetic ids of strictly smaller
rank. -/
def SynAcyclic (s : Structure) (r : String → Nat) : Prop :=
  ∀ kv ∈ s.portfolios.synthetic, ∀ c ∈ refChildren kv.2, ∀ q, c = Ref.str q →
    q ∉ s.portfolios.original →
    (lookupN s.portfolios.synthetic q).isSome = true → r q < r kv.1

/-- Fuel that suffices to flatten a reference when the synthetic graph is
acyclic with rank `r`. -/
def refNeed (s : Structure) (r : String → Nat) : Ref → Nat
  | .str q =>
    if q ∈ s.portfolios.original then 1
    else if (lookupN s.portfolios.synthetic q).isSome then r q + 2
    else 1
  | .list _ => 1

/-! ## Concrete instances used by counterexamples and witnesses -/

/-- A valid structure whose correction for `("P1", "off")` is the literal
string `"notfound"`. -/
def exSentinel : Structure :=
  { freq := "15T", tz := "Europe/Berlin",
    pflines := [("off", .str "x")],
    portfolios := { original := ["P1"], synthetic := [] },
    prices := [],
    corrections := [("P1", [("off", some (.str "notfound"))])] }

/-- A valid structure exercising every branch of `tstree_pfline`. -/
def exResolution : Structure :=
  { freq := "15T", tz := "Europe/Berlin",
    pflines := [("off", .str "x"), ("gone", .str "g")],
    portfolios := { original := ["P1"], synthetic := [] },
    prices := [],
    corrections := [("P1", [("gone", none), ("c1", some (.str "y"))])] }

/-- A valid structure whose correction for `("P1", "off")` is a string that
names an existing pfline template. -/
def exCorrRef : Structure :=
  { freq := "15T", tz := "Europe/Berlin",
    pflines := [("base", .str "Volume MW")],
    portfolios := { original := ["P1"], synthetic := [] },
    prices := [],
    corrections := [("P1", [("off", some (.str "base"))])] }

/-- A valid structure with a synthetic portfolio declared by a single
(multi-character) string reference. -/
def exStrRef : Structure :=
  { freq := "15T", tz := "Europe/Berlin",
    pflines := [("off", .str "x")],
    portfolios := { original := ["P1"], synthetic := [("S", .str "P1")] },
    prices := [], corrections := [] }

/-- A structure whose synthetic reference graph is cyclic; it passes the
construction-time validation nevertheless. -/
def exCyclic : Structure :=
  { freq := "15T", tz := "Europe/Berlin",
    pflines := [],
    portfolios := { original := ["P"], synthetic := [("S", .list [.str "S"])] },
    prices := [], corrections := [] }

/-- An acyclic structure with a list-reference synthetic portfolio. -/
def exListRef : Structure :=
  { freq := "15T", tz := "Europe/Berlin",
    pflines := [("off", .str "x"), ("lin", .str "y")],
    portfolios :=
      { original := ["P1", "P2"],
        synthetic := [("ALL", .list [.str "P1", .str "P2"])] },
    prices := [],
    corrections := [("P1", [("lin", none), ("extra", some (.str "z"))])] }

/-- An acyclic template configuration (`a` refers to `b`, `b` to `c`). -/
def exTemplates : Structure :=
  { freq := "15T", tz := "Europe/Berlin",
    pflines := [("a", .str "b"), ("b", .str "c")],
    portfolios := { original := ["P1"], synthetic := [] },
    prices := [], corrections := [] }

/-- A rank function witnessing the acyclicity of `exTemplates`. -/
def exTemplatesRank (q : String) : Nat :=
  if q = "a" then 2 else if q = "b" then 1 else 0

/-- `exCorrRef` after `__post_init__` (its only template is already fully
expanded, so the rewrite is the identity). -/
def expandedCorrRef : Structure :=
  { exCorrRef with pflines := [("base", .str "Volume MW")] }

/-! # Theorems -/

/-- C9: a correction whose stored value is the literal string `"notfound"` is
indistinguishable from an absent correction: `tstree_pfline` falls through to
the default template, or raises NotFound when there is none. -/
theorem tstree_pfline_sentinel_collision (s : Structure) (pfid pflineid : String)
    (hpf : pfid ∈ s.portfolios.original)
    (hcorr : corrVal s pfid pflineid = some (some (.str "notfound"))) :
    tstree_pfline s pfid pflineid =
      match lookupN s.pflines pflineid with
      | none => .error .notFound
      | some u => .ok (create_tstree pfid u) := by
  simp [tstree_pfline, available_pfids, hpf, hcorr, isNotfoundSentinel]

/-- Witness for C9 at a concrete structure: the correction
`{"P1": {"off": "notfound"}}` is skipped and the default template `"x"` is
used. -/
theorem tstree_pfline_sentinel_collision_witness :
    ("P1" ∈ exSentinel.portfolios.original ∧
      corrVal exSentinel "P1" "off" = some (some (.str "notfound"))) ∧
    tstree_pfline exSentinel "P1" "off" = .ok (create_tstree "P1" (.str "x")) :=
  ⟨⟨by decide, by rfl⟩,
    (tstree_pfline_sentinel_collision exSentinel "P1" "off" (by decide)
      (by rfl)).trans (by rfl)⟩

/-- Counterexample to C1 as stated: the correction for `("P1", "off")` exists
and is a tree (the string `"notfound"`), yet `tstree_pfline` does not return
that tree — it returns the default template instead. -/
theorem tstree_pfline_sentinel_cex :
    corrVal exSentinel "P1" "off" = some (some (.str "notfound")) ∧
    tstree_pfline exSentinel "P1" "off" ≠
      .ok (create_tstree "P1" (.str "notfound")) ∧
    tstree_pfline exSentinel "P1" "off" = .ok (create_tstree "P1" (.str "x")) := by
  refine ⟨rfl, ?_, rfl⟩
  intro h
  rw [show tstree_pfline exSentinel "P1" "off" =
        .ok (create_tstree "P1" (.str "x")) from rfl] at h
  simp [create_tstree] at h

/-- C1 (amended): the resolution order of `tstree_pfline` — invalid pfid
fails; a `None` correction fails NotFound; a stored correction tree other than
the literal string `"notfound"` is returned; an absent correction, or one
equal to the sentinel string `"notfound"`, falls back to the default template
and fails NotFound when that is also absent. -/
theorem tstree_pfline_resolution_order (s : Structure) (pfid pflineid : String) :
    (pfid ∉ available_pfids s true →
      tstree_pfline s pfid pflineid = .error .invalidPfid) ∧
    (pfid ∈ available_pfids s true →
      (corrVal s pfid pflineid = some none →
        tstree_pfline s pfid pflineid = .error .notFound) ∧
      (∀ t, corrVal s pfid pflineid = some (some t) →
        isNotfoundSentinel t = false →
        tstree_pfline s pfid pflineid = .ok (create_tstree pfid t)) ∧
      ((corrVal s pfid pflineid = none ∨
          corrVal s pfid pflineid = some (some (.str "notfound"))) →
        tstree_pfline s pfid pflineid =
          match lookupN s.pflines pflineid with
          | none => .error .notFound
          | some u => .ok (create_tstree pfid u))) := by
  have hav : available_pfids s true = s.portfolios.original := rfl
  refine ⟨fun hn => ?_, fun hm => ⟨fun hc => ?_, fun t hc hs => ?_, fun hc => ?_⟩⟩
  · rw [hav] at hn
    simp [tstree_pfline, available_pfids, hn]
  · rw [hav] at hm
    simp [tstree_pfline, available_pfids, hm, hc]
  · rw [hav] at hm
    simp [tstree_pfline, available_pfids, hm, hc, hs]
  · rw [hav] at hm
    rcases hc with hc | hc
    · simp [tstree_pfline, available_pfids, hm, hc, isNotfoundSentinel]
    · simp [tstree_pfline, available_pfids, hm, hc, isNotfoundSentinel]

/-- Witness for the amended C1, covering every branch on a concrete
structure. -/
theorem tstree_pfline_resolution_order_witness :
    tstree_pfline exResolution "Q" "off" = .error .invalidPfid ∧
    tstree_pfline exResolution "P1" "gone" = .error .notFound ∧
    tstree_pfline exResolution "P1" "c1" = .ok (create_tstree "P1" (.str "y")) ∧
    tstree_pfline exResolution "P1" "off" = .ok (create_tstree "P1" (.str "x")) ∧
    tstree_pfline exResolution "P1" "zz" = .error .notFound :=
  ⟨(tstree_pfline_resolution_order exResolution "Q" "off").1 (by decide),
    ((tstree_pfline_resolution_order exResolution "P1" "gone").2 (by decide)).1
      (by rfl),
    ((tstree_pfline_resolution_order exResolution "P1" "c1").2 (by decide)).2.1
      (.str "y") (by rfl) (by rfl),
    (((tstree_pfline_resolution_order exResolution "P1" "off").2
      (by decide)).2.2 (Or.inl (by rfl))).trans (by rfl),
    (((tstree_pfline_resolution_order exResolution "P1" "zz").2
      (by decide)).2.2 (Or.inl (by rfl))).trans (by rfl)⟩

/-- Counterexample to C3 as stated: the correction `{"P1": {"off": "base"}}`
names the existing template `"base"`, but `tstree_pfline` returns the
unexpanded leaf `"base"` rather than the template's expansion
`"Volume MW"`. -/
theorem correction_not_expanded_cex :
    tstree_pfline exCorrRef "P1" "off" = .ok (create_tstree "P1" (.str "base")) ∧
    expandF exCorrRef.pflines 1 (.str "base") = some (.str "Volume MW") ∧
    create_tstree "P1" (.str "base") ≠ create_tstree "P1" (.str "Volume MW") := by
  refine ⟨rfl, by simp [expandF, lookupN, List.find?], ?_⟩
  simp [create_tstree]

/-- C3 (amended): correction trees are never expanded against the line
templates — `__post_init__` rewrites only `pflines` and leaves `corrections`
untouched, and `tstree_pfline` returns a stored correction tree verbatim
(via `create_tstree`). -/
theorem tstree_pfline_correction_verbatim :
    (∀ (fuel : Nat) (s s2 : Structure), postInitF fuel s = some s2 →
      s2.corrections = s.corrections) ∧
    (∀ (s : Structure) (pfid pflineid : String) (t : NameTree),
      pfid ∈ available_pfids s true →
      corrVal s pfid pflineid = some (some t) → isNotfoundSentinel t = false →
      tstree_pfline s pfid pflineid = .ok (create_tstree pfid t)) := by
  constructor
  · intro fuel s s2 h
    unfold postInitF at h
    cases hp : postInitPflines fuel s with
    | none => rw [hp] at h; simp at h
    | some pfl =>
      rw [hp] at h
      simp at h
      rw [← h]
  · intro s pfid plid t hm hc hs
    exact ((tstree_pfline_resolution_order s pfid plid).2 hm).2.1 t hc hs

/-- Witness for the amended C3: `__post_init__` of `exCorrRef` keeps the
corrections, and the stored correction leaf `"base"` is returned verbatim. -/
theorem tstree_pfline_correction_verbatim_witness :
    (postInitF 2 exCorrRef = some expandedCorrRef ∧
      expandedCorrRef.corrections = exCorrRef.corrections) ∧
    tstree_pfline exCorrRef "P1" "off" =
      .ok (create_tstree "P1" (.str "base")) :=
  ⟨⟨by simp [postInitF, postInitPflines, List.mapM, List.mapM.loop, expandF,
        lookupN, List.find?, expandedCorrRef, exCorrRef],
    tstree_pfline_correction_verbatim.1 2 exCorrRef expandedCorrRef
      (by simp [postInitF, postInitPflines, List.mapM, List.mapM.loop, expandF,
        lookupN, List.find?, expandedCorrRef, exCorrRef])⟩,
    tstree_pfline_correction_verbatim.2 exCorrRef "P1" "off" (.str "base")
      (by decide) (by rfl) (by rfl)⟩

/-- C5: evaluation at the failing input.  The synthetic reference
`{"S": "P1"}` passes construction validation, but `to_original_pfids`
iterates over the characters of the string `"P1"` and fails with
`ValueError`, instead of returning `["P1"]`. -/
theorem to_original_pfids_char_iteration :
    portfoliosValid exStrRef.portfolios = true ∧
    refChildren (Ref.str "P1") = [.str "P", .str "1"] ∧
    to_original_pfidsF exStrRef 5 (.str "S") = .error .valueError ∧
    to_original_pfidsF exStrRef 5 (.str "S") ≠ .ok ["P1"] := by
  refine ⟨by decide, rfl, rfl, by decide⟩

/-- Counterexample to C6 as stated: a price-only child is not padded with a
zero volume component — it is passed to the parent unchanged. -/
theorem pfline_price_child_not_padded_cex :
    pfline (.dict [("a", .flat false true false)]) =
      some (.nested [("a", .flat false true false)]) ∧
    (PfLine.flat false true false).kind = Kind.price ∧
    orZeroMW (.flat false true false) = some (.flat true true false) ∧
    pfline (.dict [("a", .flat false true false)]) ≠
      some (.nested [("a", .flat true true false)]) := by
  refine ⟨rfl, rfl, rfl, ?_⟩
  intro h
  rw [show pfline (.dict [("a", .flat false true false)]) =
        some (.nested [("a", .flat false true false)]) from rfl] at h
  simp at h

/-- The padding loop of `Tenant._pfline` agrees pointwise with the per-child
spec transformation `padChildSpec`. -/
theorem mapM_pad_eq (cs : List (String × PfLine)) :
    cs.mapM (fun c =>
      if c.2.kind = Kind.revenue then (orZeroMW c.2).map (fun v => (c.1, v))
      else some c) =
    cs.mapM (fun c => (padChildSpec c.2).map (fun v => (c.1, v))) := by
  induction cs with
  | nil => rfl
  | cons c cs ih =>
    rw [List.mapM_cons, List.mapM_cons, ih]
    by_cases h : c.2.kind = Kind.revenue
    · simp [padChildSpec, h]
    · simp [padChildSpec, h]

/-- Unfolding of `Tenant._pfline` on a dict node. -/
theorem pfline_dict_eq (kvs : List (String × SeriesTree)) :
    pfline (SeriesTree.dict kvs) =
      (pflineChildren kvs).bind (fun children =>
        (children.mapM (fun c =>
          if c.2.kind = Kind.revenue then (orZeroMW c.2).map (fun v => (c.1, v))
          else some c)).bind
          (fun padded => some (PfLine.nested padded))) := rfl

/-- C6 (amended): in the Branch case, once all children are built, exactly the
children of kind `REVENUE` are padded with a zero volume component before the
parent composite is formed; all other children (price-only included) are
passed through unchanged. -/
theorem pfline_pads_only_revenue (kvs : List (String × SeriesTree))
    (cs : List (String × PfLine)) (h : pflineChildren kvs = some cs) :
    pfline (.dict kvs) =
      (cs.mapM (fun c => (padChildSpec c.2).map (fun v => (c.1, v)))).map
        PfLine.nested := by
  rw [pfline_dict_eq, h]
  show (cs.mapM (fun c =>
      if c.2.kind = Kind.revenue then (orZeroMW c.2).map (fun v => (c.1, v))
      else some c)).bind (fun padded => some (PfLine.nested padded)) = _
  rw [mapM_pad_eq]
  cases cs.mapM (fun c => (padChildSpec c.2).map (fun v => (c.1, v))) with
  | none => rfl
  | some l => rfl

/-- Witness for the amended C6: a revenue child is padded, a volume child is
untouched. -/
theorem pfline_pads_only_revenue_witness :
    pflineChildren [("a", SeriesTree.flat false false true),
        ("b", SeriesTree.flat true false false)] =
      some [("a", PfLine.flat false false true),
        ("b", PfLine.flat true false false)] ∧
    pfline (.dict [("a", SeriesTree.flat false false true),
        ("b", SeriesTree.flat true false false)]) =
      some (.nested [("a", PfLine.flat true false true),
        ("b", PfLine.flat true false false)]) :=
  ⟨rfl,
    (pfline_pads_only_revenue
      [("a", SeriesTree.flat false false true),
        ("b", SeriesTree.flat true false false)]
      [("a", PfLine.flat false false true), ("b", PfLine.flat true false false)]
      rfl).trans rfl⟩

/-- C7: the default aftercare chain converts the index to the structure's
timezone, attaches the inferrable frequency (none when inconsistent), and
shifts the timestamps from right-bound to left-bound exactly when the gap
between the first two timestamps is at most two hours. -/
theorem default_aftercare_behavior (tz : String) (s : Series) (a b : Int)
    (rest : List Int) (hidx : s.idx = a :: b :: rest) :
    fact_default_aftercare tz s =
      some { idx := if b - a ≤ 120 then righttoleft (b - a) s.idx else s.idx,
             tz := tz,
             freq := inferredFreq s.idx } := by
  obtain ⟨idx, tz0, freq0⟩ := s
  simp only at hidx
  subst hidx
  simp only [fact_default_aftercare, convert_to_tz, infer_frequency, makeleft]
  by_cases h : b - a ≤ 120
  · simp [h]
  · simp [h]

/-- Witness for C7: an hourly series is recognised as right-bound and shifted;
a daily series is left untouched. -/
theorem default_aftercare_behavior_witness :
    fact_default_aftercare "Europe/Berlin" ⟨[0, 60, 120], "UTC", none⟩ =
      some { idx := [-60, 0, 60], tz := "Europe/Berlin", freq := some 60 } ∧
    fact_default_aftercare "Europe/Berlin" ⟨[0, 1440, 2880], "UTC", none⟩ =
      some { idx := [0, 1440, 2880], tz := "Europe/Berlin",
             freq := some 1440 } :=
  ⟨(default_aftercare_behavior "Europe/Berlin" ⟨[0, 60, 120], "UTC", none⟩
      0 60 [120] rfl).trans (by rfl),
    (default_aftercare_behavior "Europe/Berlin" ⟨[0, 1440, 2880], "UTC", none⟩
      0 1440 [2880] rfl).trans (by rfl)⟩

/-- Counterexample to C8 as stated: after an operation has failed twice, the
retry flag stays cleared, so the next failing operation performs no
re-authentication and no retry — it makes a single request (the claim
predicts two) and zero authentications (the claim predicts one). -/
theorem query_no_retry_after_failed_operation_cex :
    (query true [500, 500, 500]).result = .error .runtimeError ∧
    (query true [500, 500, 500]).retry = false ∧
    (query (query true [500, 500, 500]).retry [500]).reqs = 1 ∧
    (query (query true [500, 500, 500]).retry [500]).auths = 0 ∧
    (query (query true [500, 500, 500]).retry [500]).result =
      .error .runtimeError := by
  refine ⟨rfl, rfl, rfl, rfl, rfl⟩

/-- C8 (amended): when the retry flag is set (initially, or after any
successful response), a failing response triggers exactly one
re-authentication and one retry of the same operation, and a second failure
raises; the flag is reset only by a successful response, so with the flag
cleared a failing operation makes a single request, performs no
re-authentication, and raises immediately. -/
theorem query_retry_behavior :
    (∀ (code : Nat) (rest : List Nat), code ≠ 200 →
      (query true (code :: rest)).reqs = 2 ∧
      (query true (code :: rest)).auths = 1) ∧
    (∀ (code : Nat) (rest2 : List Nat), code ≠ 200 →
      (query true (code :: 200 :: rest2)).result = .ok () ∧
      (query true (code :: 200 :: rest2)).retry = true) ∧
    (∀ (code code2 : Nat) (rest2 : List Nat), code ≠ 200 → code2 ≠ 200 →
      (query true (code :: code2 :: rest2)).result = .error .runtimeError ∧
      (query true (code :: code2 :: rest2)).retry = false) ∧
    (∀ script : List Nat,
      (query false script).reqs = 1 ∧ (query false script).auths = 0) ∧
    (∀ (code : Nat) (rest : List Nat), code ≠ 200 →
      (query false (code :: rest)).result = .error .runtimeError) := by
  have hfalse : ∀ script : List Nat,
      (query false script).reqs = 1 ∧ (query false script).auths = 0 := by
    intro script
    cases script with
    | nil => exact ⟨rfl, rfl⟩
    | cons code rest =>
      by_cases h : code = 200
      · subst h; exact ⟨rfl, rfl⟩
      · simp [query, h]
  refine ⟨fun code rest h => ?_, fun code rest2 h => ?_,
    fun code code2 rest2 h h2 => ?_, hfalse, fun code rest h => ?_⟩
  · have := hfalse rest
    simp [query, h]
    omega
  · simp [query, h]
  · simp [query, h, h2]
  · simp [query, h]

/-- Witness for the amended C8 at concrete scripts. -/
theorem query_retry_behavior_witness :
    ((query true [500, 500]).reqs = 2 ∧ (query true [500, 500]).auths = 1) ∧
    ((query true [500, 200]).result = .ok () ∧
      (query true [500, 200]).retry = true) ∧
    ((query true [500, 500]).result = .error .runtimeError ∧
      (query true [500, 500]).retry = false) ∧
    ((query false [500]).reqs = 1 ∧ (query false [500]).auths = 0) ∧
    (query false [500]).result = .error .runtimeError :=
  ⟨query_retry_behavior.1 500 [500] (by decide),
    query_retry_behavior.2.1 500 [] (by decide),
    query_retry_behavior.2.2.1 500 500 [] (by decide) (by decide),
    query_retry_behavior.2.2.2.1 [500],
    query_retry_behavior.2.2.2.2 500 [] (by decide)⟩

/-- A successful association-list lookup returns a member of the list. -/
theorem mem_of_lookupN {α : Type} (l : List (String × α)) (k : String) (v : α)
    (h : lookupN l k = some v) : (k, v) ∈ l := by
  unfold lookupN at h
  cases hf : l.find? (fun p => p.1 == k) with
  | none => rw [hf] at h; simp at h
  | some p =>
    rw [hf] at h
    simp at h
    have hm := List.mem_of_find?_eq_some hf
    have hp := List.find?_some hf
    simp at hp
    obtain ⟨p1, p2⟩ := p
    simp at hp h
    rw [← hp, ← h]
    exact hm

/-- If the child loop hits the recursion limit, one of the children did. -/
theorem childLoop_recursionLimit (f : Ref → Except PyErr (List String)) :
    ∀ l : List Ref, childLoop f l = .error .recursionLimit →
      ∃ c ∈ l, f c = .error .recursionLimit := by
  intro l
  induction l with
  | nil => intro h; exact absurd h (by simp [childLoop])
  | cons c cs ih =>
    intro h
    cases hfc : f c with
    | error e =>
      have he : childLoop f (c :: cs) = .error e := by
        simp only [childLoop, hfc]
        rfl
      rw [he] at h
      injection h with h2
      subst h2
      exact ⟨c, List.mem_cons_self c cs, hfc⟩
    | ok l1 =>
      cases hcs : childLoop f cs with
      | error e =>
        have he : childLoop f (c :: cs) = .error e := by
          simp only [childLoop, hfc, hcs]
          rfl
        rw [he] at h
        injection h with h2
        subst h2
        obtain ⟨c2, hc2, hfc2⟩ := ih hcs
        exact ⟨c2, List.mem_cons_of_mem _ hc2, hfc2⟩
      | ok l2 =>
        have he : childLoop f (c :: cs) = .ok (l1 ++ l2) := by
          simp only [childLoop, hfc, hcs]
          rfl
        rw [he] at h
        exact Except.noConfusion h

/-- On the cyclic structure `exCyclic`, flattening `"S"` exhausts any amount
of fuel: the Python code recurses forever (until `RecursionError`). -/
theorem cyclic_flattening_loop (n : Nat) :
    to_original_pfidsF exCyclic n (.str "S") = .error .recursionLimit := by
  induction n with
  | zero => rfl
  | succ n ih =>
    have step : to_original_pfidsF exCyclic (n + 1) (Ref.str "S") =
        childLoop (fun c => to_original_pfidsF exCyclic n c) [Ref.str "S"] := rfl
    rw [step]
    simp only [childLoop, ih]
    rfl

/-- Counterexample to C10 as stated: the cyclic synthetic configuration
`{"S": ["S"]}` passes construction validation, yet `to_original_pfids("S")`
never terminates (it hits the recursion limit for every fuel). -/
theorem cyclic_flattening_diverges_cex :
    portfoliosValid exCyclic.portfolios = true ∧
    ¬ FlattenTerminates exCyclic (.str "S") := by
  refine ⟨by decide, ?_⟩
  rintro ⟨n, hn⟩
  exact hn (cyclic_flattening_loop n)

/-- Every reference needs at least one unit of fuel. -/
theorem refNeed_pos (s : Structure) (r : String → Nat) (ref : Ref) :
    1 ≤ refNeed s r ref := by
  cases ref with
  | str q =>
    simp only [refNeed]
    split
    · omega
    · split <;> omega
  | list rs => simp [refNeed]

/-- C10 (amended): when the synthetic-reference graph is acyclic (witnessed by
a rank function), `to_original_pfids` terminates: with fuel at least
`refNeed` the recursion never hits the recursion limit.  (Construction
validation does not guarantee this: see the counterexample.) -/
theorem to_original_pfids_terminates (s : Structure) (r : String → Nat)
    (hac : SynAcyclic s r) :
    ∀ (n : Nat) (ref : Ref), refNeed s r ref ≤ n →
      to_original_pfidsF s n ref ≠ .error .recursionLimit := by
  intro n
  induction n using Nat.strong_induction_on with
  | _ n ih =>
    intro ref hneed
    cases n with
    | zero =>
      have := refNeed_pos s r ref
      omega
    | succ n =>
      cases ref with
      | list rs =>
        intro h
        rw [show to_original_pfidsF s (n + 1) (.list rs) =
            .error .typeError from rfl] at h
        simp at h
      | str q =>
        by_cases hq : q ∈ s.portfolios.original
        · intro h
          rw [show to_original_pfidsF s (n + 1) (.str q) = .ok [q] by
            simp [to_original_pfidsF, hq]] at h
          exact Except.noConfusion h
        · cases hl : lookupN s.portfolios.synthetic q with
          | none =>
            intro h
            rw [show to_original_pfidsF s (n + 1) (.str q) =
                .error .valueError by simp [to_original_pfidsF, hq, hl]] at h
            simp at h
          | some ref2 =>
            intro h
            rw [show to_original_pfidsF s (n + 1) (.str q) =
                childLoop (fun c => to_original_pfidsF s n c)
                  (refChildren ref2) by
              simp [to_original_pfidsF, hq, hl]] at h
            obtain ⟨c, hc, hfc⟩ := childLoop_recursionLimit _ _ h
            have hrq : r q + 2 ≤ n + 1 := by
              have : refNeed s r (.str q) = r q + 2 := by
                simp [refNeed, hq, hl]
              omega
            have hcneed : refNeed s r c ≤ n := by
              cases c with
              | list rs2 => simp [refNeed]; omega
              | str p =>
                by_cases hp : p ∈ s.portfolios.original
                · simp [refNeed, hp]; omega
                · cases hlp : lookupN s.portfolios.synthetic p with
                  | none => simp [refNeed, hp, hlp]; omega
                  | some _ =>
                    have hrp : r p < r q :=
                      hac (q, ref2) (mem_of_lookupN _ _ _ hl) (Ref.str p) hc p
                        rfl hp (by simp [hlp])
                    simp [refNeed, hp, hlp]
                    omega
            exact ih n (by omega) c hcneed hfc

/-- Witness for the amended C10: `exListRef` is acyclic (rank 0 everywhere),
and flattening the synthetic portfolio `"ALL"` terminates with
`["P1", "P2"]`. -/
theorem to_original_pfids_terminates_witness :
    SynAcyclic exListRef (fun _ => 0) ∧
    to_original_pfidsF exListRef 2 (.str "ALL") ≠ .error .recursionLimit ∧
    to_original_pfidsF exListRef 2 (.str "ALL") = .ok ["P1", "P2"] := by
  have hac : SynAcyclic exListRef (fun _ => 0) := by
    intro kv hkv c hc q hceq hqo hqs
    simp [exListRef] at hkv
    subst hkv
    simp [refChildren] at hc
    rcases hc with hc | hc <;> subst hc <;> injection hceq with h2 <;>
      subst h2 <;> exact absurd (by decide) hqo
  exact ⟨hac,
    to_original_pfids_terminates exListRef (fun _ => 0) hac 2 (.str "ALL")
      (by decide), rfl⟩

/-- Membership in a left fold of finite-set intersections. -/
theorem mem_foldl_inter (rest : List (Finset String)) :
    ∀ (s0 : Finset String) (x : String),
      x ∈ rest.foldl (· ∩ ·) s0 ↔ x ∈ s0 ∧ ∀ A ∈ rest, x ∈ A := by
  induction rest with
  | nil => intro s0 x; simp
  | cons B rest ih =>
    intro s0 x
    rw [List.foldl_cons, ih]
    simp [Finset.mem_inter]
    tauto

/-- Binding a success just applies the continuation. -/
theorem except_ok_bind {e a b : Type} (x : a) (f : a → Except e b) :
    (do let y ← Except.ok x; f y) = f x := rfl

/-- Binding a `some` just applies the continuation. -/
theorem opt_some_bind {a b : Type} (x : a) (f : a → Option b) :
    (do let y ← some x; f y) = f x := rfl

/-- Characterisation of the correction fold of
`Structure.available_pflineids`: under the construction-time assertions
(unique keys; every `None` correction names an existing id) the fold succeeds
and produces `(init \ removed) ∪ added`. -/
theorem foldl_applyCorrection (corr : List (String × Option NameTree)) :
    ∀ init : Finset String,
      (corr.map Prod.fst).Nodup →
      (∀ lc ∈ corr, lc.2.isSome = false → lc.1 ∈ init) →
      ∃ ids, corr.foldl applyCorrection (.ok init) = .ok ids ∧
        ∀ x, x ∈ ids ↔
          ((∃ lc ∈ corr, x = lc.1 ∧ lc.2.isSome = true) ∨
           (x ∈ init ∧ ¬∃ lc ∈ corr, x = lc.1 ∧ lc.2.isSome = false)) := by
  induction corr with
  | nil =>
    intro init _ _
    exact ⟨init, rfl, by simp⟩
  | cons lc corr ih =>
    intro init hnodup hinit
    rw [List.map_cons, List.nodup_cons] at hnodup
    obtain ⟨hhead, htail⟩ := hnodup
    have hno : ∀ x, x = lc.1 → ¬∃ lc2 ∈ corr, x = lc2.1 := by
      rintro x hx ⟨lc2, hm2, he2⟩
      exact hhead (hx ▸ he2 ▸ List.mem_map_of_mem Prod.fst hm2)
    cases hv : lc.2 with
    | none =>
      have hmem : lc.1 ∈ init :=
        hinit lc (List.mem_cons_self lc corr) (by simp [hv])
      have hstep : applyCorrection (.ok init) lc = .ok (init.erase lc.1) := by
        unfold applyCorrection
        rw [except_ok_bind, hv]
        simp [hmem]
      rw [List.foldl_cons, hstep]
      obtain ⟨ids, heq, hch⟩ := ih (init.erase lc.1) htail (by
        intro lc2 hm2 hs2
        have h1 : lc2.1 ∈ init :=
          hinit lc2 (List.mem_cons_of_mem _ hm2) hs2
        have h2 : lc2.1 ≠ lc.1 := by
          intro he
          exact hhead (he ▸ List.mem_map_of_mem Prod.fst hm2)
        exact Finset.mem_erase.mpr ⟨h2, h1⟩)
      refine ⟨ids, heq, fun x => ?_⟩
      rw [hch x]
      simp only [Finset.mem_erase, List.mem_cons]
      constructor
      · rintro (⟨lc2, hm2, he2, hs2⟩ | ⟨⟨hne, hin⟩, hnon⟩)
        · exact Or.inl ⟨lc2, Or.inr hm2, he2, hs2⟩
        · refine Or.inr ⟨hin, ?_⟩
          rintro ⟨lc2, hm2 | hm2, he2, hs2⟩
          · subst hm2
            exact hne he2
          · exact hnon ⟨lc2, hm2, he2, hs2⟩
      · rintro (⟨lc2, hm2 | hm2, he2, hs2⟩ | ⟨hin, hnon⟩)
        · subst hm2
          rw [hv] at hs2
          simp at hs2
        · exact Or.inl ⟨lc2, hm2, he2, hs2⟩
        · have hne : x ≠ lc.1 := by
            intro he
            exact hnon ⟨lc, Or.inl rfl, he, by simp [hv]⟩
          refine Or.inr ⟨⟨hne, hin⟩, ?_⟩
          rintro ⟨lc2, hm2, he2, hs2⟩
          exact hnon ⟨lc2, Or.inr hm2, he2, hs2⟩
    | some t =>
      have hstep : applyCorrection (.ok init) lc = .ok (insert lc.1 init) := by
        unfold applyCorrection
        rw [except_ok_bind, hv]
      rw [List.foldl_cons, hstep]
      obtain ⟨ids, heq, hch⟩ := ih (insert lc.1 init) htail (by
        intro lc2 hm2 hs2
        exact Finset.mem_insert_of_mem
          (hinit lc2 (List.mem_cons_of_mem _ hm2) hs2))
      refine ⟨ids, heq, fun x => ?_⟩
      rw [hch x]
      simp only [Finset.mem_insert, List.mem_cons]
      constructor
      · rintro (⟨lc2, hm2, he2, hs2⟩ | ⟨hx | hin, hnon⟩)
        · exact Or.inl ⟨lc2, Or.inr hm2, he2, hs2⟩
        · exact Or.inl ⟨lc, Or.inl rfl, hx, by simp [hv]⟩
        · refine Or.inr ⟨hin, ?_⟩
          rintro ⟨lc2, hm2 | hm2, he2, hs2⟩
          · subst hm2
            rw [hv] at hs2
            simp at hs2
          · exact hnon ⟨lc2, hm2, he2, hs2⟩
      · rintro (⟨lc2, hm2 | hm2, he2, hs2⟩ | ⟨hin, hnon⟩)
        · subst hm2
          refine Or.inr ⟨Or.inl he2, ?_⟩
          rintro ⟨lc2, hm2b, he2b, _⟩
          exact hno x he2 ⟨lc2, hm2b, he2b⟩
        · exact Or.inl ⟨lc2, hm2, he2, hs2⟩
        · refine Or.inr ⟨Or.inr hin, ?_⟩
          rintro ⟨lc2, hm2, he2, hs2⟩
          exact hnon ⟨lc2, Or.inr hm2, he2, hs2⟩

/-- A successful `childLoop` result only contains elements that the
per-child results contain. -/
theorem childLoop_ok_forall (f : Ref → Except PyErr (List String))
    (P : String → Prop)
    (hf : ∀ c l2, f c = .ok l2 → ∀ p ∈ l2, P p) :
    ∀ (cs : List Ref) (l : List String), childLoop f cs = .ok l →
      ∀ p ∈ l, P p := by
  intro cs
  induction cs with
  | nil =>
    intro l h
    rw [show childLoop f [] = .ok [] from rfl] at h
    injection h with h2
    subst h2
    intro p hp
    simp at hp
  | cons c cs ih =>
    intro l h
    cases hfc : f c with
    | error e =>
      rw [show childLoop f (c :: cs) = .error e by
        simp only [childLoop, hfc]; rfl] at h
      exact Except.noConfusion h
    | ok l1 =>
      cases hcs : childLoop f cs with
      | error e =>
        rw [show childLoop f (c :: cs) = .error e by
          simp only [childLoop, hfc, hcs]; rfl] at h
        exact Except.noConfusion h
      | ok l2 =>
        rw [show childLoop f (c :: cs) = .ok (l1 ++ l2) by
          simp only [childLoop, hfc, hcs]; rfl] at h
        injection h with h2
        subst h2
        intro p hp
        rcases List.mem_append.mp hp with hp | hp
        · exact hf c l1 hfc p hp
        · exact ih l2 hcs p hp

/-- A successful flattening only returns original portfolio ids. -/
theorem to_original_ok_mem (s : Structure) :
    ∀ (n : Nat) (ref : Ref) (l : List String),
      to_original_pfidsF s n ref = .ok l →
      ∀ p ∈ l, p ∈ s.portfolios.original := by
  intro n
  induction n with
  | zero =>
    intro ref l h
    exact Except.noConfusion h
  | succ n ih =>
    intro ref l h
    cases ref with
    | list rs =>
      rw [show to_original_pfidsF s (n + 1) (.list rs) =
        .error .typeError from rfl] at h
      exact Except.noConfusion h
    | str q =>
      by_cases hq : q ∈ s.portfolios.original
      · rw [show to_original_pfidsF s (n + 1) (.str q) = .ok [q] by
          simp [to_original_pfidsF, hq]] at h
        injection h with h2
        subst h2
        intro p hp
        simp at hp
        subst hp
        exact hq
      · cases hl : lookupN s.portfolios.synthetic q with
        | none =>
          rw [show to_original_pfidsF s (n + 1) (.str q) =
            .error .valueError by simp [to_original_pfidsF, hq, hl]] at h
          exact Except.noConfusion h
        | some ref2 =>
          rw [show to_original_pfidsF s (n + 1) (.str q) =
            childLoop (fun c => to_original_pfidsF s n c) (refChildren ref2) by
            simp [to_original_pfidsF, hq, hl]] at h
          exact childLoop_ok_forall _ _ (fun c l2 hc => ih c l2 hc)
            (refChildren ref2) l h

/-- When every element maps to a success, `mapM` collects the images. -/
theorem mapM_ok_of_forall (f : String → Except PyErr (Finset String))
    (A : String → Finset String) :
    ∀ l : List String, (∀ q ∈ l, f q = .ok (A q)) →
      l.mapM f = .ok (l.map A) := by
  intro l
  induction l with
  | nil => intro _; rfl
  | cons q l ih =>
    intro h
    rw [List.mapM_cons, h q (List.mem_cons_self q l),
      ih (fun q2 hq2 => h q2 (List.mem_cons_of_mem _ hq2))]
    rfl

/-- C2: `available_pflineids`.  For an original portfolio the result is the
set of template ids minus the `None`-corrected ids plus the concretely
corrected ids (under the construction-time assertions).  For a synthetic
portfolio whose flattening succeeds (necessarily with at least one
constituent, all of them original) the result is the set-intersection of the
constituents' results. -/
theorem available_pflineids_characterization :
    (∀ (s : Structure) (pfid : String),
      pfid ∈ s.portfolios.original →
      (((lookupN s.corrections pfid).getD []).map Prod.fst).Nodup →
      (∀ lc ∈ (lookupN s.corrections pfid).getD [], lc.2.isSome = false →
        lc.1 ∈ pflineKeys s) →
      ∃ ids, availOriginal s pfid = .ok ids ∧
        ∀ x, x ∈ ids ↔
          ((∃ lc ∈ (lookupN s.corrections pfid).getD [],
              x = lc.1 ∧ lc.2.isSome = true) ∨
           (x ∈ pflineKeys s ∧
            ¬∃ lc ∈ (lookupN s.corrections pfid).getD [],
              x = lc.1 ∧ lc.2.isSome = false))) ∧
    (∀ (s : Structure) (fuel : Nat) (pfid p : String) (ps : List String)
        (A : String → Finset String),
      pfid ∉ s.portfolios.original →
      to_original_pfidsF s (fuel + 1) (.str pfid) = .ok (p :: ps) →
      (∀ q ∈ p :: ps, availOriginal s q = .ok (A q)) →
      available_pflineidsF s (fuel + 1) pfid =
        .ok ((ps.map A).foldl (· ∩ ·) (A p)) ∧
      ∀ x, x ∈ (ps.map A).foldl (· ∩ ·) (A p) ↔
        ∀ q ∈ p :: ps, x ∈ A q) := by
  constructor
  · intro s pfid _ hnodup hinit
    exact foldl_applyCorrection _ (pflineKeys s) hnodup hinit
  · intro s fuel pfid p ps A hnpf hflat hA
    have hmem : ∀ q ∈ p :: ps, q ∈ s.portfolios.original :=
      to_original_ok_mem s (fuel + 1) (.str pfid) (p :: ps) hflat
    have hrec : ∀ q ∈ p :: ps, available_pflineidsF s fuel q = .ok (A q) := by
      intro q hq
      rw [show available_pflineidsF s fuel q = availOriginal s q by
        rw [available_pflineidsF.eq_def]
        simp [hmem q hq]]
      exact hA q hq
    constructor
    · rw [show available_pflineidsF s (fuel + 1) pfid = (do
          let l ← to_original_pfidsF s (fuel + 1) (.str pfid)
          let sets ← l.mapM (available_pflineidsF s fuel)
          match sets with
          | [] => .error .typeError
          | s0 :: rest => .ok (rest.foldl (· ∩ ·) s0)) by
        rw [available_pflineidsF.eq_def]
        simp [hnpf]]
      rw [hflat]
      show (do
          let sets ← (p :: ps).mapM (available_pflineidsF s fuel)
          match sets with
          | [] => (.error .typeError : Except PyErr (Finset String))
          | s0 :: rest => .ok (rest.foldl (· ∩ ·) s0)) = _
      rw [mapM_ok_of_forall _ A _ hrec]
      rfl
    · intro x
      rw [mem_foldl_inter]
      constructor
      · rintro ⟨hp, hrest⟩ q hq
        rcases List.mem_cons.mp hq with hq | hq
        · exact hq ▸ hp
        · exact hrest (A q) (List.mem_map_of_mem A hq)
      · intro hall
        refine ⟨hall p (List.mem_cons_self p ps), ?_⟩
        rintro B hB
        rcases List.mem_map.mp hB with ⟨q, hq, hBq⟩
        exact hBq ▸ hall q (List.mem_cons_of_mem _ hq)

/-- Witness for C2 on `exListRef`: portfolio `"P1"` has template ids
`{off, lin}`, loses `lin` (None correction) and gains `extra`; the synthetic
portfolio `"ALL"` gets the intersection of the results for `P1` and `P2`. -/
theorem available_pflineids_characterization_witness :
    (∃ ids, availOriginal exListRef "P1" = .ok ids ∧
      ∀ x, x ∈ ids ↔
        ((∃ lc ∈ (lookupN exListRef.corrections "P1").getD [],
            x = lc.1 ∧ lc.2.isSome = true) ∨
         (x ∈ pflineKeys exListRef ∧
          ¬∃ lc ∈ (lookupN exListRef.corrections "P1").getD [],
            x = lc.1 ∧ lc.2.isSome = false))) ∧
    available_pflineidsF exListRef 2 "ALL" =
      .ok (([( {"off", "lin"} : Finset String)].foldl (· ∩ ·)
        ({"off", "extra"} : Finset String))) :=
  ⟨available_pflineids_characterization.1 exListRef "P1" (by decide)
      (by decide) (by decide),
    (available_pflineids_characterization.2 exListRef 1 "ALL" "P1" ["P2"]
      (fun q => if q = "P1" then {"off", "extra"} else {"off", "lin"})
      (by decide) (by rfl) (by decide)).1⟩

/-- Unfolding: expansion of a string node that is not a template key. -/
theorem expandF_str_none (pfl : List (String × NameTree)) (n : Nat) (q : String)
    (hl : lookupN pfl q = none) : expandF pfl n (.str q) = some (.str q) := by
  simp [expandF, hl]

/-- Unfolding: expansion of a string node that is a template key follows the
template, consuming one unit of fuel. -/
theorem expandF_str_some (pfl : List (String × NameTree)) (m : Nat)
    (q : String) (u : NameTree) (hl : lookupN pfl q = some u) :
    expandF pfl (m + 1) (.str q) = expandF pfl m u := by
  simp [expandF, hl]

/-- Unfolding: expansion of a list node. -/
theorem expandF_list_eq (pfl : List (String × NameTree)) (n : Nat)
    (ts : List NameTree) :
    expandF pfl n (.list ts) = (expandListF pfl n ts).map NameTree.list := by
  simp [expandF]

/-- Unfolding: expansion of a dict node. -/
theorem expandF_dict_eq (pfl : List (String × NameTree)) (n : Nat)
    (kvs : List (String × NameTree)) :
    expandF pfl n (.dict kvs) = (expandDictF pfl n kvs).map NameTree.dict := by
  simp [expandF]

/-- Unfolding: elementwise expansion of a cons cell. -/
theorem expandListF_cons (pfl : List (String × NameTree)) (n : Nat)
    (t : NameTree) (ts : List NameTree) :
    expandListF pfl n (t :: ts) = (do
      let u ← expandF pfl n t
      let us ← expandListF pfl n ts
      some (u :: us)) := by
  simp [expandListF]

/-- Unfolding: valuewise expansion of a cons cell. -/
theorem expandDictF_cons (pfl : List (String × NameTree)) (n : Nat)
    (k : String) (v : NameTree) (kvs : List (String × NameTree)) :
    expandDictF pfl n ((k, v) :: kvs) = (do
      let u ← expandF pfl n v
      let us ← expandDictF pfl n kvs
      some ((k, u) :: us)) := by
  simp [expandDictF]

/-- Every name tree has positive size. -/
theorem one_le_sizeOf_nameTree (t : NameTree) : 1 ≤ sizeOf t := by
  cases t <;> simp_arith

/-- Under an acyclic template graph, expansion with enough fuel (a bound on
the ranks of the referenced templates) succeeds, and the result contains no
string node that is a template key. -/
theorem expandF_total_good (pfl : List (String × NameTree)) (r : String → Nat)
    (hac : PflAcyclic pfl r) :
    ∀ (n : Nat) (t : NameTree), RankBelow pfl r n t →
      ∃ u, expandF pfl n t = some u ∧
        ∀ q ∈ treeRefs u, lookupN pfl q = none := by
  intro n
  induction n using Nat.strong_induction_on with
  | _ n ihn =>
    suffices h : ∀ (k : Nat) (t : NameTree), sizeOf t ≤ k →
        RankBelow pfl r n t →
        ∃ u, expandF pfl n t = some u ∧
          ∀ q ∈ treeRefs u, lookupN pfl q = none by
      intro t ht
      exact h (sizeOf t) t le_rfl ht
    intro k
    induction k with
    | zero =>
      intro t hsz _
      have := one_le_sizeOf_nameTree t
      omega
    | succ k ihk =>
      intro t hsz ht
      cases t with
      | str q =>
        cases hl : lookupN pfl q with
        | none =>
          refine ⟨.str q, expandF_str_none pfl n q hl, ?_⟩
          intro q2 hq2
          have hq3 : q2 ∈ ([q] : List String) := hq2
          simp at hq3
          subst hq3
          exact hl
        | some u =>
          have hq0 : q ∈ treeRefs (.str q) := by
            show q ∈ [q]
            simp
          have hrq : r q < n := ht q hq0 (by simp [hl])
          cases n with
          | zero => omega
          | succ m =>
            rw [expandF_str_some pfl m q u hl]
            apply ihn m (by omega) u
            intro q2 hq2 hs2
            have hru : r q2 < r q :=
              hac (q, u) (mem_of_lookupN _ _ _ hl) q2 hq2 hs2
            omega
      | list ts =>
        have hsz2 : sizeOf ts ≤ k := by
          simp at hsz
          omega
        have hlist : ∀ ts2 : List NameTree, sizeOf ts2 ≤ sizeOf ts →
            (∀ q ∈ listRefs ts2, (lookupN pfl q).isSome = true → r q < n) →
            ∃ us, expandListF pfl n ts2 = some us ∧
              ∀ q ∈ listRefs us, lookupN pfl q = none := by
          intro ts2
          induction ts2 with
          | nil =>
            intro _ _
            refine ⟨[], by simp [expandListF], ?_⟩
            intro q hq
            have hq2 : q ∈ ([] : List String) := hq
            simp at hq2
          | cons t2 ts2 iht =>
            intro hsz3 hr3
            have hhd : sizeOf t2 ≤ k := by
              simp at hsz3
              omega
            have hr3a : ∀ q ∈ treeRefs t2, (lookupN pfl q).isSome = true →
                r q < n := by
              intro q hq hs
              exact hr3 q (List.mem_append_left _ hq) hs
            have hr3b : ∀ q ∈ listRefs ts2, (lookupN pfl q).isSome = true →
                r q < n := by
              intro q hq hs
              exact hr3 q (List.mem_append_right _ hq) hs
            obtain ⟨u2, hu2, hg2⟩ := ihk t2 hhd hr3a
            obtain ⟨us2, hus2, hgs2⟩ := iht (by simp at hsz3 ⊢; omega) hr3b
            refine ⟨u2 :: us2, ?_, ?_⟩
            · rw [expandListF_cons, hu2, opt_some_bind, hus2]
              rfl
            · intro q hq
              rcases List.mem_append.mp hq with hq | hq
              · exact hg2 q hq
              · exact hgs2 q hq
        obtain ⟨us, hus, hgus⟩ := hlist ts le_rfl (fun q hq hs => ht q hq hs)
        refine ⟨.list us, ?_, fun q hq => hgus q hq⟩
        rw [expandF_list_eq, hus]
        rfl
      | dict kvs =>
        have hdict : ∀ kvs2 : List (String × NameTree),
            sizeOf kvs2 ≤ sizeOf kvs →
            (∀ q ∈ dictRefs kvs2, (lookupN pfl q).isSome = true → r q < n) →
            ∃ us, expandDictF pfl n kvs2 = some us ∧
              ∀ q ∈ dictRefs us, lookupN pfl q = none := by
          intro kvs2
          induction kvs2 with
          | nil =>
            intro _ _
            refine ⟨[], by simp [expandDictF], ?_⟩
            intro q hq
            have hq2 : q ∈ ([] : List String) := hq
            simp at hq2
          | cons kv kvs2 iht =>
            obtain ⟨k2, v2⟩ := kv
            intro hsz3 hr3
            have hhd : sizeOf v2 ≤ k := by
              simp at hsz hsz3
              omega
            have hr3a : ∀ q ∈ treeRefs v2, (lookupN pfl q).isSome = true →
                r q < n := by
              intro q hq hs
              exact hr3 q (List.mem_append_left _ hq) hs
            have hr3b : ∀ q ∈ dictRefs kvs2, (lookupN pfl q).isSome = true →
                r q < n := by
              intro q hq hs
              exact hr3 q (List.mem_append_right _ hq) hs
            obtain ⟨u2, hu2, hg2⟩ := ihk v2 hhd hr3a
            obtain ⟨us2, hus2, hgs2⟩ := iht (by simp at hsz3 ⊢; omega) hr3b
            refine ⟨(k2, u2) :: us2, ?_, ?_⟩
            · rw [expandDictF_cons, hu2, opt_some_bind, hus2]
              rfl
            · intro q hq
              rcases List.mem_append.mp hq with hq | hq
              · exact hg2 q hq
              · exact hgs2 q hq
        obtain ⟨us, hus, hgus⟩ := hdict kvs le_rfl (fun q hq hs => ht q hq hs)
        refine ⟨.dict us, ?_, fun q hq => hgus q hq⟩
        rw [expandF_dict_eq, hus]
        rfl

/-- A tree without template references is a fixed point of expansion, for any
amount of fuel. -/
theorem expandF_fixed (pfl : List (String × NameTree)) (n : Nat) :
    ∀ (k : Nat) (u : NameTree), sizeOf u ≤ k →
      (∀ q ∈ treeRefs u, lookupN pfl q = none) →
      expandF pfl n u = some u := by
  intro k
  induction k with
  | zero =>
    intro u hsz _
    have := one_le_sizeOf_nameTree u
    omega
  | succ k ihk =>
    intro u hsz hg
    cases u with
    | str q =>
      apply expandF_str_none
      apply hg q
      show q ∈ [q]
      simp
    | list ts =>
      have hlist : ∀ ts2 : List NameTree, sizeOf ts2 ≤ sizeOf ts →
          (∀ q ∈ listRefs ts2, lookupN pfl q = none) →
          expandListF pfl n ts2 = some ts2 := by
        intro ts2
        induction ts2 with
        | nil => intro _ _; simp [expandListF]
        | cons t2 ts2 iht =>
          intro hsz3 hg3
          have hhd : sizeOf t2 ≤ k := by
            simp at hsz hsz3
            omega
          have h1 : expandF pfl n t2 = some t2 :=
            ihk t2 hhd (fun q hq => hg3 q (List.mem_append_left _ hq))
          have h2 : expandListF pfl n ts2 = some ts2 :=
            iht (by simp at hsz3 ⊢; omega)
              (fun q hq => hg3 q (List.mem_append_right _ hq))
          rw [expandListF_cons, h1, opt_some_bind, h2]
          rfl
      rw [expandF_list_eq, hlist ts le_rfl (fun q hq => hg q hq)]
      rfl
    | dict kvs =>
      have hdict : ∀ kvs2 : List (String × NameTree),
          sizeOf kvs2 ≤ sizeOf kvs →
          (∀ q ∈ dictRefs kvs2, lookupN pfl q = none) →
          expandDictF pfl n kvs2 = some kvs2 := by
        intro kvs2
        induction kvs2 with
        | nil => intro _ _; simp [expandDictF]
        | cons kv kvs2 iht =>
          obtain ⟨k2, v2⟩ := kv
          intro hsz3 hg3
          have hhd : sizeOf v2 ≤ k := by
            simp at hsz hsz3
            omega
          have h1 : expandF pfl n v2 = some v2 :=
            ihk v2 hhd (fun q hq => hg3 q (List.mem_append_left _ hq))
          have h2 : expandDictF pfl n kvs2 = some kvs2 :=
            iht (by simp at hsz3 ⊢; omega)
              (fun q hq => hg3 q (List.mem_append_right _ hq))
          rw [expandDictF_cons, h1, opt_some_bind, h2]
          rfl
      rw [expandF_dict_eq, hdict kvs le_rfl (fun q hq => hg q hq)]
      rfl

/-- C4: for a structure whose line-template graph is acyclic (witnessed by a
rank function bounded by the fuel), `_expand_tree` is idempotent, and the
expanded tree contains no string node that is a key of `pflines`. -/
theorem expand_tree_idempotent (s : Structure) (r : String → Nat) (n : Nat)
    (t : NameTree) (hac : PflAcyclic s.pflines r)
    (hrank : RankBelow s.pflines r n t) :
    (expandF s.pflines n t).bind (expandF s.pflines n) =
      expandF s.pflines n t ∧
    ∃ u, expandF s.pflines n t = some u ∧
      ∀ q ∈ treeRefs u, lookupN s.pflines q = none := by
  obtain ⟨u, hu, hgood⟩ := expandF_total_good s.pflines r hac n t hrank
  refine ⟨?_, u, hu, hgood⟩
  rw [hu]
  show expandF s.pflines n u = some u
  exact expandF_fixed s.pflines n (sizeOf u) u le_rfl hgood

/-- Witness for C4 on the acyclic template configuration `exTemplates`
(`a → b → c`): expanding `{"k": "a"}` once reaches the fixed point. -/
theorem expand_tree_idempotent_witness :
    PflAcyclic exTemplates.pflines exTemplatesRank ∧
    RankBelow exTemplates.pflines exTemplatesRank 3
      (.dict [("k", .str "a")]) ∧
    (expandF exTemplates.pflines 3 (.dict [("k", .str "a")])).bind
        (expandF exTemplates.pflines 3) =
      expandF exTemplates.pflines 3 (.dict [("k", .str "a")]) :=
  ⟨by unfold PflAcyclic; decide, by unfold RankBelow; decide,
    (expand_tree_idempotent exTemplates exTemplatesRank 3
      (.dict [("k", .str "a")]) (by unfold PflAcyclic; decide)
      (by unfold RankBelow; decide)).1⟩

end Belvys
